import Mathlib

/-!
Verification of the `Random` sampler of `chocolate/sample/random.py`.

The sampler draws hyperparameter candidates from a search space and records
them in a shared store.  The numpy generator is modelled abstractly as a
position (a count of consumed entropy units) into a fixed stream of values:
`rand()` consumes one unit, `rand(n)` consumes `n`, `rand(n, m)` consumes
`n * m`, and `choice(xs)` consumes one unit and picks an index below
`xs.length`.  Records are Python dicts, modelled as association lists with
last-binding-wins lookup.  Python's `int` arithmetic on the `drawn` counter
is modelled with `Int`; `range(k)` of a negative `k` is empty, which the
`Int.toNat` clamping reproduces.
-/

namespace Chocolate

/-- A value held in a stored record: a raw dimension value or an integer id
(the code stores `int(sample)` resp. the count `i` under `"_chocolate_id"`). -/
inductive EVal where
  | q (x : ℚ)
  | idv (n : Nat)
deriving DecidableEq

/-- A persisted record: a Python dict, as an association list (later bindings
shadow earlier ones, matching `dict` construction plus `dict.update`). -/
abbrev Record := List (String × EVal)

/-- The shared store: the sequence of inserted records.
`count_results` is its length, `all_results` enumerates it,
`insert_result` appends. -/
abbrev Store := List Record

/-- Python dict lookup `doc[k]`: the last binding for `k` wins,
`none` models a `KeyError`. -/
def dlookup (doc : Record) (k : String) : Option EVal :=
  (doc.reverse.find? (fun p => p.1 == k)).map (·.2)

/-- The entropy stream behind a numpy generator: `scalar p` is the value the
`p`-th scalar draw produces, `choiceAt p` is the raw draw `choice` turns into
an index at position `p`.  Each draw consumes one unit of entropy. -/
structure EntropyStream where
  scalar : Nat → ℚ
  choiceAt : Nat → Nat

/-- The search space collaborator (`chocolate.Space`): ordered dimension
names, the `isdiscrete()` flag, and the map from a raw coordinate vector to
the mapped point (`self.space(out)`). -/
structure SpaceT where
  names : List String
  isdiscrete : Bool
  map : List ℚ → List ℚ

/-- The ambient environment: `numpy.random.RandomState(v)` as a deterministic
stream per seed value, the process-wide `numpy.random` module generator, and
the `ParameterGrid` constructor for fully discrete spaces (grid row `j` is
the raw vector that `subspace_grids[j]` returns). -/
structure Env where
  seedStream : Int → EntropyStream
  globalStream : EntropyStream
  globalPos : Nat
  gridOf : SpaceT → List (List ℚ)

/-- The `random_state` argument of `Random.__init__`: an existing
`numpy.random.RandomState` instance, `None`, or any other value. -/
inductive SeedSpec where
  | rstate (stream : EntropyStream) (pos : Nat)
  | absent
  | value (v : Int)

/-- The mutable state of one `Random` sampler instance: the space, the
`subspace_grids` built when the space is fully discrete, the owned generator
(stream plus current position), and the `drawn` counter. -/
structure Sampler where
  space : SpaceT
  grids : Option (List (List ℚ))
  stream : EntropyStream
  pos : Nat
  drawn : Int

/-- `Random.__init__`: resolve the seed specification (a `RandomState` is
used as-is, `None` selects the global generator, any other value seeds a
fresh `RandomState`), build `subspace_grids` iff the space is fully
discrete, and start `drawn` at 0. -/
def Random.init (env : Env) (space : SpaceT) (seed : SeedSpec) : Sampler :=
  let g : EntropyStream × Nat :=
    match seed with
    | .rstate stream pos => (stream, pos)
    | .absent => (env.globalStream, env.globalPos)
    | .value v => (env.seedStream v, 0)
  { space := space
    grids := if space.isdiscrete then some (env.gridOf space) else none
    stream := g.1
    pos := g.2
    drawn := 0 }

/-- Failure conditions of `next()`: `exhausted` is the `StopIteration` raised
when a fully discrete space has no index left; `collab` stands for any
exception propagated from a collaborator (a `KeyError` reading
`"_chocolate_id"`, numpy's errors on an empty `choice` or a negative
dimension). -/
inductive Err where
  | exhausted
  | collab
deriving DecidableEq

/-- The outcome of one `next()` call: either an error together with the state
at raise time, or the `(token id, mapped point)` pair together with the new
sampler state and the new store. -/
abbrev NextResult :=
  Except (Err × Sampler × Store) ((Nat × List ℚ) × Sampler × Store)

/-- `[doc["_chocolate_id"] for doc in self.conn.all_results()]`:
`none` models the `KeyError` when some record lacks the id field. -/
def drawnIdsOf : Store → Option (List EVal)
  | [] => some []
  | doc :: rest =>
    match dlookup doc "_chocolate_id", drawnIdsOf rest with
    | some v, some vs => some (v :: vs)
    | _, _ => none

/-- `sorted(set(range(l)) - set(drawn))`: the ascending list of grid indices
in `[0, l)` whose id value is not among the stored ids. -/
def availableChoices (l : Nat) (ds : List EVal) : List Nat :=
  (List.range l).filter (fun x => !(ds.contains (EVal.idv x)))

/-- `entry = {k : v for k, v in zip(names, out)}; entry.update(token)`:
the token binding comes last, so it shadows any dimension that happens to be
named `"_chocolate_id"`. -/
def buildEntry (names : List String) (out : List ℚ) (tid : Nat) : Record :=
  names.zip (out.map EVal.q) ++ [("_chocolate_id", EVal.idv tid)]

/-- The discrete branch of `Random.next` (`subspace_grids is not None`):
check exhaustion, burn `i - drawn` scalar draws, read the stored ids, choose
uniformly among the remaining grid indices, set `drawn` to
`drawn + (i - drawn + 1)`, build and insert the record. -/
def nextDiscrete (s : Sampler) (st : Store) (G : List (List ℚ)) : NextResult :=
  let i := st.length
  let l := G.length
  if i ≥ l then .error (.exhausted, s, st)
  else
    let pos₁ := s.pos + ((i : ℤ) - s.drawn).toNat
    match drawnIdsOf st with
    | none => .error (.collab, { s with pos := pos₁ }, st)
    | some ds =>
      let choices := availableChoices l ds
      if choices = [] then .error (.collab, { s with pos := pos₁ }, st)
      else
        let sample := choices.getD (s.stream.choiceAt pos₁ % choices.length) 0
        let out := G.getD sample []
        .ok ((sample, s.space.map out),
          { s with pos := pos₁ + 1, drawn := s.drawn + ((i : ℤ) - s.drawn + 1) },
          st ++ [buildEntry s.space.names out sample])

/-- The continuous/mixed branch of `Random.next` (`subspace_grids is None`):
the token id is `i`, `rand(n, i - drawn)` burns `n * (i - drawn)` scalar
draws (numpy rejects a negative dimension), `rand(n)` draws the raw vector,
`drawn` becomes `drawn + (i - drawn + 1)`. -/
def nextContinuous (s : Sampler) (st : Store) : NextResult :=
  let i := st.length
  if ((i : ℤ) - s.drawn) < 0 then .error (.collab, s, st)
  else
    let n := s.space.names.length
    let pos₁ := s.pos + n * ((i : ℤ) - s.drawn).toNat
    let out := (List.range n).map (fun j => s.stream.scalar (pos₁ + j))
    .ok ((i, s.space.map out),
      { s with pos := pos₁ + n, drawn := s.drawn + ((i : ℤ) - s.drawn + 1) },
      st ++ [buildEntry s.space.names out i])

/-- `Random.next()`: under the store's lock, read the record count and run
the branch selected by `subspace_grids`. -/
def Random.next (s : Sampler) (st : Store) : NextResult :=
  match s.grids with
  | some G => nextDiscrete s st G
  | none => nextContinuous s st

/-- Drive one sampler through `k` sequential `next()` calls against one
store, collecting the `(token id, point)` results; stop at the first
failure. -/
def steps : Nat → Sampler → Store → Except (Err × Sampler × Store)
    (List (Nat × List ℚ) × Sampler × Store)
  | 0, s, st => .ok ([], s, st)
  | k + 1, s, st =>
    match Random.next s st with
    | .error e => .error e
    | .ok (r, s', st') =>
      match steps k s' st' with
      | .error e => .error e
      | .ok (rs, s'', st'') => .ok (r :: rs, s'', st'')

/-- The result pair a call returns, forgetting the state. -/
def resultOf : NextResult → Option (Nat × List ℚ)
  | .ok (r, _, _) => some r
  | .error _ => none

/-- The kind of failure a call raises, if any. -/
def errKind : NextResult → Option Err
  | .ok _ => none
  | .error (e, _, _) => some e

/-- States reachable from a base state by this instance's own `next()` calls
interleaved with external insert-only writes to the shared store. -/
inductive Reach (s₀ : Sampler) (st₀ : Store) : Sampler → Store → Prop
  | refl : Reach s₀ st₀ s₀ st₀
  | ext {s st} (extra : Store) : Reach s₀ st₀ s st → Reach s₀ st₀ s (st ++ extra)
  | step {s st r s' st'} : Reach s₀ st₀ s st →
      Random.next s st = .ok (r, s', st') → Reach s₀ st₀ s' st'

/-- Every grid index below `L` already appears as the id of some stored
record. -/
def recordedAll (st : Store) (L : Nat) : Prop :=
  ∀ x < L, ∃ doc ∈ st, dlookup doc "_chocolate_id" = some (EVal.idv x)

/-! ### Lemmas about records and stored ids -/

theorem dlookup_append_last (ps : Record) (k : String) (v : EVal) :
    dlookup (ps ++ [(k, v)]) k = some v := by
  simp [dlookup, List.find?_cons]

theorem dlookup_buildEntry_id (names : List String) (out : List ℚ) (tid : Nat) :
    dlookup (buildEntry names out tid) "_chocolate_id" = some (EVal.idv tid) :=
  dlookup_append_last _ _ _

theorem dlookup_isSome_iff (doc : Record) (k : String) :
    (dlookup doc k).isSome ↔ k ∈ doc.map Prod.fst := by
  rw [dlookup]
  simp [List.find?_isSome]

theorem drawnIdsOf_concat (st : Store) (e : Record) (es : List EVal) (v : EVal)
    (hst : drawnIdsOf st = some es) (he : dlookup e "_chocolate_id" = some v) :
    drawnIdsOf (st ++ [e]) = some (es ++ [v]) := by
  induction st generalizing es with
  | nil =>
    simp only [drawnIdsOf, Option.some.injEq] at hst
    subst hst
    simp [drawnIdsOf, he]
  | cons doc rest ih =>
    simp only [drawnIdsOf] at hst
    rcases h1 : dlookup doc "_chocolate_id" with _ | w <;> rw [h1] at hst
    · exact absurd hst (by simp)
    · rcases h2 : drawnIdsOf rest with _ | ws <;> rw [h2] at hst
      · exact absurd hst (by simp)
      · simp only [Option.some.injEq] at hst
        subst hst
        rw [List.cons_append]
        simp only [drawnIdsOf, h1, ih ws h2]
        rfl

theorem drawnIdsOf_length (st : Store) (es : List EVal)
    (h : drawnIdsOf st = some es) : es.length = st.length := by
  induction st generalizing es with
  | nil => simp only [drawnIdsOf, Option.some.injEq] at h; subst h; rfl
  | cons doc rest ih =>
    simp only [drawnIdsOf] at h
    rcases h1 : dlookup doc "_chocolate_id" with _ | w <;> rw [h1] at h
    · exact absurd h (by simp)
    · rcases h2 : drawnIdsOf rest with _ | ws <;> rw [h2] at h
      · exact absurd h (by simp)
      · simp only [Option.some.injEq] at h
        subst h
        simp [ih ws h2]

theorem drawnIdsOf_mem (st : Store) (es : List EVal)
    (h : drawnIdsOf st = some es) (v : EVal) :
    v ∈ es ↔ ∃ doc ∈ st, dlookup doc "_chocolate_id" = some v := by
  induction st generalizing es with
  | nil =>
    simp only [drawnIdsOf, Option.some.injEq] at h; subst h; simp
  | cons doc rest ih =>
    simp only [drawnIdsOf] at h
    rcases h1 : dlookup doc "_chocolate_id" with _ | w <;> rw [h1] at h
    · exact absurd h (by simp)
    · rcases h2 : drawnIdsOf rest with _ | ws <;> rw [h2] at h
      · exact absurd h (by simp)
      · simp only [Option.some.injEq] at h
        subst h
        simp only [List.mem_cons, ih ws h2, List.mem_cons]
        constructor
        · rintro (rfl | ⟨d, hd, hv⟩)
          · exact ⟨doc, Or.inl rfl, h1⟩
          · exact ⟨d, Or.inr hd, hv⟩
        · rintro ⟨d, rfl | hd, hv⟩
          · rw [h1] at hv; exact Or.inl (Option.some.inj hv).symm
          · exact Or.inr ⟨d, hd, hv⟩

/-! ### Lemmas about the available-choice set -/

theorem mem_availableChoices (l : Nat) (ds : List EVal) (x : Nat) :
    x ∈ availableChoices l ds ↔ x < l ∧ EVal.idv x ∉ ds := by
  simp [availableChoices, List.mem_filter, List.mem_range, List.elem_iff]

theorem sorted_availableChoices (l : Nat) (ds : List EVal) :
    List.Sorted (· < ·) (availableChoices l ds) :=
  List.Pairwise.filter _ (List.pairwise_lt_range l)

theorem nodup_availableChoices (l : Nat) (ds : List EVal) :
    (availableChoices l ds).Nodup :=
  (sorted_availableChoices l ds).nodup

theorem availableChoices_ne_nil (l : Nat) (ids : List Nat)
    (hnd : ids.Nodup) (hlen : ids.length < l) :
    availableChoices l (ids.map EVal.idv) ≠ [] := by
  intro hempty
  have hsub : ∀ x < l, x ∈ ids := by
    intro x hx
    have := (List.filter_eq_nil_iff.mp hempty) x (List.mem_range.mpr hx)
    simp only [Bool.not_eq_true', Bool.not_eq_false, List.elem_iff,
      List.mem_map, EVal.idv.injEq] at this
    rcases this with ⟨y, hy, rfl⟩
    exact hy
  have hsubset : Finset.range l ⊆ ids.toFinset := by
    intro x hx
    exact List.mem_toFinset.mpr (hsub x (Finset.mem_range.mp hx))
  have hcard : l ≤ ids.length := by
    calc l = (Finset.range l).card := (Finset.card_range l).symm
    _ ≤ ids.toFinset.card := Finset.card_le_card hsubset
    _ = ids.length := List.toFinset_card_of_nodup hnd
  omega

theorem getD_mem_of_lt {α : Type} (l : List α) (d : α) (i : Nat)
    (h : i < l.length) : l.getD i d ∈ l := by
  rw [List.getD_eq_getElem?_getD, List.getElem?_eq_getElem h]
  exact List.getElem_mem h

/-! ### Guard-directed equations for the two branches of `next()` -/

theorem next_eq_disc (s : Sampler) (st : Store) (G : List (List ℚ))
    (hg : s.grids = some G) : Random.next s st = nextDiscrete s st G := by
  rw [Random.next, hg]

theorem next_eq_cont (s : Sampler) (st : Store)
    (hg : s.grids = none) : Random.next s st = nextContinuous s st := by
  rw [Random.next, hg]

theorem nextDiscrete_exhausted (s : Sampler) (st : Store) (G : List (List ℚ))
    (h : G.length ≤ st.length) :
    nextDiscrete s st G = .error (.exhausted, s, st) := by
  rw [nextDiscrete]
  simp only [ge_iff_le, h, if_true]

theorem nextDiscrete_keyError (s : Sampler) (st : Store) (G : List (List ℚ))
    (hlt : st.length < G.length) (h : drawnIdsOf st = none) :
    nextDiscrete s st G =
      .error (.collab,
        { s with pos := s.pos + ((st.length : ℤ) - s.drawn).toNat }, st) := by
  rw [nextDiscrete]
  simp only [ge_iff_le, Nat.not_le.mpr hlt, if_false, h]

theorem nextDiscrete_emptyChoices (s : Sampler) (st : Store)
    (G : List (List ℚ)) (ds : List EVal) (hlt : st.length < G.length)
    (hids : drawnIdsOf st = some ds)
    (hne : availableChoices G.length ds = []) :
    nextDiscrete s st G =
      .error (.collab,
        { s with pos := s.pos + ((st.length : ℤ) - s.drawn).toNat }, st) := by
  rw [nextDiscrete]
  simp only [ge_iff_le, Nat.not_le.mpr hlt, if_false, hids, hne, if_true]

/-- The grid index the discrete branch picks: `choice` applied to the
available-choice set at the position reached after burning. -/
def discSample (s : Sampler) (st : Store) (G : List (List ℚ))
    (ds : List EVal) : Nat :=
  let pos₁ := s.pos + ((st.length : ℤ) - s.drawn).toNat
  let choices := availableChoices G.length ds
  choices.getD (s.stream.choiceAt pos₁ % choices.length) 0

/-- The raw coordinate vector the continuous branch draws, at the positions
reached after burning `n * (i - drawn)` values. -/
def contOut (s : Sampler) (st : Store) : List ℚ :=
  (List.range s.space.names.length).map
    (fun j => s.stream.scalar
      (s.pos + s.space.names.length * ((st.length : ℤ) - s.drawn).toNat + j))

theorem nextDiscrete_ok_char (s : Sampler) (st : Store) (G : List (List ℚ))
    (ds : List EVal) (hlt : st.length < G.length)
    (hids : drawnIdsOf st = some ds)
    (hne : availableChoices G.length ds ≠ []) :
    nextDiscrete s st G = .ok
      ((discSample s st G ds, s.space.map (G.getD (discSample s st G ds) [])),
       { s with pos := s.pos + ((st.length : ℤ) - s.drawn).toNat + 1,
                drawn := s.drawn + ((st.length : ℤ) - s.drawn + 1) },
       st ++ [buildEntry s.space.names (G.getD (discSample s st G ds) [])
         (discSample s st G ds)]) := by
  rw [nextDiscrete]
  simp only [ge_iff_le, Nat.not_le.mpr hlt, if_false, hids, hne, if_neg]
  rfl

theorem nextContinuous_negDim (s : Sampler) (st : Store)
    (h : (st.length : ℤ) - s.drawn < 0) :
    nextContinuous s st = .error (.collab, s, st) := by
  rw [nextContinuous]
  simp only [h, if_true]

theorem nextContinuous_ok_char (s : Sampler) (st : Store)
    (h : s.drawn ≤ (st.length : ℤ)) :
    nextContinuous s st = .ok
      ((st.length, s.space.map (contOut s st)),
       { s with pos := s.pos + s.space.names.length *
                  ((st.length : ℤ) - s.drawn).toNat + s.space.names.length,
                drawn := s.drawn + ((st.length : ℤ) - s.drawn + 1) },
       st ++ [buildEntry s.space.names (contOut s st) st.length]) := by
  rw [nextContinuous]
  simp only [if_neg (not_lt.mpr (by omega : (0 : ℤ) ≤ (st.length : ℤ) - s.drawn))]
  rfl

/-! ### Inversion on a successful call -/

theorem nextDiscrete_ok_shape (s : Sampler) (st : Store) (G : List (List ℚ))
    (r : Nat × List ℚ) (s' : Sampler) (st' : Store)
    (h : nextDiscrete s st G = .ok (r, s', st')) :
    st.length < G.length ∧ s'.space = s.space ∧ s'.grids = s.grids ∧
    s'.stream = s.stream ∧
    s'.pos = s.pos + ((st.length : ℤ) - s.drawn).toNat + 1 ∧
    s'.drawn = s.drawn + ((st.length : ℤ) - s.drawn + 1) ∧
    r.2 = s.space.map (G.getD r.1 []) ∧
    st' = st ++ [buildEntry s.space.names (G.getD r.1 []) r.1] ∧
    ∃ ds, drawnIdsOf st = some ds ∧
      availableChoices G.length ds ≠ [] ∧
      r.1 = discSample s st G ds := by
  by_cases hlt : st.length < G.length
  · rcases hids : drawnIdsOf st with _ | ds
    · rw [nextDiscrete_keyError s st G hlt hids] at h
      exact Except.noConfusion h
    · by_cases hne : availableChoices G.length ds = []
      · rw [nextDiscrete_emptyChoices s st G ds hlt hids hne] at h
        exact Except.noConfusion h
      · rw [nextDiscrete_ok_char s st G ds hlt hids hne] at h
        simp only [Except.ok.injEq, Prod.mk.injEq] at h
        obtain ⟨h1, h2, h3⟩ := h
        subst h1; subst h2; subst h3
        exact ⟨hlt, rfl, rfl, rfl, rfl, rfl, rfl, rfl, ds, rfl, hne, rfl⟩
  · rw [nextDiscrete_exhausted s st G (by omega)] at h
    exact Except.noConfusion h

theorem nextContinuous_ok_shape (s : Sampler) (st : Store)
    (r : Nat × List ℚ) (s' : Sampler) (st' : Store)
    (h : nextContinuous s st = .ok (r, s', st')) :
    s.drawn ≤ (st.length : ℤ) ∧ s'.space = s.space ∧ s'.grids = s.grids ∧
    s'.stream = s.stream ∧
    s'.pos = s.pos + s.space.names.length * ((st.length : ℤ) - s.drawn).toNat
      + s.space.names.length ∧
    s'.drawn = s.drawn + ((st.length : ℤ) - s.drawn + 1) ∧
    r.1 = st.length ∧
    r.2 = s.space.map (contOut s st) ∧
    st' = st ++ [buildEntry s.space.names (contOut s st) st.length] := by
  by_cases hneg : (st.length : ℤ) - s.drawn < 0
  · rw [nextContinuous_negDim s st hneg] at h
    exact Except.noConfusion h
  · have hd : s.drawn ≤ (st.length : ℤ) := by omega
    rw [nextContinuous_ok_char s st hd] at h
    simp only [Except.ok.injEq, Prod.mk.injEq] at h
    obtain ⟨h1, h2, h3⟩ := h
    subst h1; subst h2; subst h3
    exact ⟨hd, rfl, rfl, rfl, rfl, rfl, rfl, rfl, rfl⟩

/-- Facts common to every successful call, whichever branch ran: the
configuration is untouched, `drawn` becomes `i + 1` where `i` is the record
count read at the start, and exactly one record is appended. -/
theorem next_ok_common (s : Sampler) (st : Store)
    (r : Nat × List ℚ) (s' : Sampler) (st' : Store)
    (h : Random.next s st = .ok (r, s', st')) :
    s'.space = s.space ∧ s'.grids = s.grids ∧ s'.stream = s.stream ∧
    s'.drawn = (st.length : ℤ) + 1 ∧ ∃ e, st' = st ++ [e] := by
  rcases hg : s.grids with _ | G
  · rw [next_eq_cont s st hg] at h
    obtain ⟨_, h2, h3, h4, _, h6, _, _, h9⟩ := nextContinuous_ok_shape s st r s' st' h
    exact ⟨h2, hg ▸ h3, h4, by omega, _, h9⟩
  · rw [next_eq_disc s st G hg] at h
    obtain ⟨_, h2, h3, h4, _, h6, _, h8, _⟩ := nextDiscrete_ok_shape s st G r s' st' h
    exact ⟨h2, hg ▸ h3, h4, by omega, _, h8⟩

/-! ### Composing sequential calls -/

theorem steps_cons (k : Nat) {s : Sampler} {st : Store} {r : Nat × List ℚ}
    {s' : Sampler} {st' : Store} {rs : List (Nat × List ℚ)} {s'' : Sampler}
    {st'' : Store} (hnext : Random.next s st = .ok (r, s', st'))
    (hsteps : steps k s' st' = .ok (rs, s'', st'')) :
    steps (k + 1) s st = .ok (r :: rs, s'', st'') := by
  simp only [steps, hnext, hsteps]

theorem steps_err_head (k : Nat) {s : Sampler} {st : Store}
    {e : Err × Sampler × Store} (hnext : Random.next s st = .error e) :
    steps (k + 1) s st = .error e := by
  simp only [steps, hnext]

theorem steps_cons_err (k : Nat) {s : Sampler} {st : Store}
    {r : Nat × List ℚ} {s' : Sampler} {st' : Store}
    {e : Err × Sampler × Store}
    (hnext : Random.next s st = .ok (r, s', st'))
    (hsteps : steps k s' st' = .error e) :
    steps (k + 1) s st = .error e := by
  simp only [steps, hnext, hsteps]

theorem steps_ok_inv (k : Nat) {s : Sampler} {st : Store}
    {rs : List (Nat × List ℚ)} {s'' : Sampler} {st'' : Store} :
    steps (k + 1) s st = .ok (rs, s'', st'') →
    ∃ r s' st' rs', Random.next s st = .ok (r, s', st') ∧
      steps k s' st' = .ok (rs', s'', st'') ∧ rs = r :: rs' := by
  intro h
  rcases hnext : Random.next s st with e | ⟨r, s', st'⟩
  · rw [steps_err_head k hnext] at h
    exact Except.noConfusion h
  · simp only [steps, hnext] at h
    rcases hsteps : steps k s' st' with e | ⟨rs', s₂, st₂⟩ <;> rw [hsteps] at h
    · exact Except.noConfusion h
    · simp only [Except.ok.injEq, Prod.mk.injEq] at h
      obtain ⟨h1, h2, h3⟩ := h
      subst h1; subst h2; subst h3
      exact ⟨r, s', st', rs', rfl, hsteps, rfl⟩

/-- Appending one more call to a successful run of `k` calls. -/
theorem steps_snoc (k : Nat) {s : Sampler} {st : Store}
    {rs : List (Nat × List ℚ)} {s' : Sampler} {st' : Store}
    (hsteps : steps k s st = .ok (rs, s', st')) :
    steps (k + 1) s st = (match Random.next s' st' with
      | .error e => .error e
      | .ok (r, s'', st'') => .ok (rs ++ [r], s'', st'')) := by
  induction k generalizing s st rs with
  | zero =>
    simp only [steps, Except.ok.injEq, Prod.mk.injEq] at hsteps
    obtain ⟨h1, h2, h3⟩ := hsteps
    subst h1; subst h2; subst h3
    simp only [steps]
    rcases hnext : Random.next s st with e | ⟨r, s'', st''⟩ <;> simp [steps]
  | succ k ih =>
    obtain ⟨r, s₁, st₁, rs', hnext, hsteps', rfl⟩ := steps_ok_inv k hsteps
    have h2 := ih hsteps'
    rcases hlast : Random.next s' st' with e | ⟨r₂, s₂, st₂⟩ <;> rw [hlast] at h2
    · exact steps_cons_err (k + 1) hnext h2
    · exact steps_cons (k + 1) hnext h2

/-! ### The continuous sequential run -/

theorem steps_cont_run (k : Nat) : ∀ (s : Sampler) (st : Store),
    s.grids = none → s.drawn = (st.length : ℤ) →
    ∃ rs s' st', steps k s st = .ok (rs, s', st') ∧
      rs.map Prod.fst = List.range' st.length k ∧
      s'.grids = none ∧ s'.space = s.space ∧ s'.stream = s.stream ∧
      s'.drawn = (st'.length : ℤ) ∧ st'.length = st.length + k := by
  induction k with
  | zero =>
    intro s st hg hd
    exact ⟨[], s, st, rfl, rfl, hg, rfl, rfl, hd, rfl⟩
  | succ k ih =>
    intro s st hg hd
    have hnext : Random.next s st = .ok
        ((st.length, s.space.map (contOut s st)),
         { s with pos := s.pos + s.space.names.length *
                    ((st.length : ℤ) - s.drawn).toNat + s.space.names.length,
                  drawn := s.drawn + ((st.length : ℤ) - s.drawn + 1) },
         st ++ [buildEntry s.space.names (contOut s st) st.length]) := by
      rw [next_eq_cont s st hg, nextContinuous_ok_char s st (le_of_eq hd)]
    have hlen : (st ++ [buildEntry s.space.names (contOut s st) st.length]).length
        = st.length + 1 := by simp
    obtain ⟨rs, s', st', hsteps, hids, hg', hsp, hstr, hd', hlen'⟩ :=
      ih { s with pos := s.pos + s.space.names.length *
                    ((st.length : ℤ) - s.drawn).toNat + s.space.names.length,
                  drawn := s.drawn + ((st.length : ℤ) - s.drawn + 1) }
        (st ++ [buildEntry s.space.names (contOut s st) st.length])
        hg (by
          show s.drawn + ((st.length : ℤ) - s.drawn + 1) = _
          rw [hlen]; push_cast; omega)
    rw [hlen] at hlen'
    refine ⟨(st.length, s.space.map (contOut s st)) :: rs, s', st',
      steps_cons k hnext hsteps, ?_, hg', hsp, hstr, hd', by omega⟩
    rw [List.map_cons, hids, hlen]
    rfl

/-! ### The discrete sequential run -/

theorem discSample_mem (s : Sampler) (st : Store) (G : List (List ℚ))
    (ds : List EVal) (hne : availableChoices G.length ds ≠ []) :
    discSample s st G ds ∈ availableChoices G.length ds := by
  rw [discSample]
  apply getD_mem_of_lt
  exact Nat.mod_lt _ (List.length_pos.mpr hne)

/-- One successful discrete step from a well-formed store: the chosen index
is a fresh grid index, and the invariant data extends by exactly it. -/
theorem disc_step (s : Sampler) (st : Store) (G : List (List ℚ))
    (ids : List Nat) (hg : s.grids = some G)
    (hids : drawnIdsOf st = some (ids.map EVal.idv))
    (hnd : ids.Nodup) (hlt : ∀ x ∈ ids, x < G.length)
    (hcard : ids.length = st.length) (hroom : st.length < G.length) :
    ∃ r s' st', Random.next s st = .ok (r, s', st') ∧
      r.1 < G.length ∧ r.1 ∉ ids ∧
      drawnIdsOf st' = some ((ids ++ [r.1]).map EVal.idv) ∧
      (ids ++ [r.1]).Nodup ∧ (∀ x ∈ ids ++ [r.1], x < G.length) ∧
      (ids ++ [r.1]).length = st'.length ∧
      s'.grids = some G ∧ s'.space = s.space ∧ s'.stream = s.stream ∧
      st'.length = st.length + 1 := by
  have hne : availableChoices G.length (ids.map EVal.idv) ≠ [] :=
    availableChoices_ne_nil G.length ids hnd (by omega)
  have hnext : Random.next s st = _ :=
    (next_eq_disc s st G hg).trans
      (nextDiscrete_ok_char s st G (ids.map EVal.idv) hroom hids hne)
  have hmem := discSample_mem s st G (ids.map EVal.idv) hne
  rw [mem_availableChoices] at hmem
  obtain ⟨hslt, hsnot⟩ := hmem
  have hsnotids : discSample s st G (ids.map EVal.idv) ∉ ids := by
    intro hx
    exact hsnot (List.mem_map_of_mem _ hx)
  refine ⟨_, _, _, hnext, hslt, hsnotids, ?_, ?_, ?_, ?_, hg, rfl, rfl, by simp⟩
  · rw [List.map_append]
    exact drawnIdsOf_concat st _ _ _ hids (dlookup_buildEntry_id _ _ _)
  · simp [List.nodup_append, hnd, hsnotids]
  · intro x hx
    rcases List.mem_append.mp hx with hx | hx
    · exact hlt x hx
    · rw [List.mem_singleton.mp hx]
      exact hslt
  · simp [hcard]

theorem steps_disc_run (G : List (List ℚ)) (k : Nat) :
    ∀ (s : Sampler) (st : Store) (ids : List Nat),
    s.grids = some G →
    drawnIdsOf st = some (ids.map EVal.idv) → ids.Nodup →
    (∀ x ∈ ids, x < G.length) → ids.length = st.length →
    st.length + k ≤ G.length →
    ∃ rs s' st', steps k s st = .ok (rs, s', st') ∧
      drawnIdsOf st' = some ((ids ++ rs.map Prod.fst).map EVal.idv) ∧
      (ids ++ rs.map Prod.fst).Nodup ∧
      (∀ x ∈ ids ++ rs.map Prod.fst, x < G.length) ∧
      (ids ++ rs.map Prod.fst).length = st'.length ∧
      s'.grids = some G ∧ st'.length = st.length + k := by
  induction k with
  | zero =>
    intro s st ids hg hids hnd hlt hcard _
    exact ⟨[], s, st, rfl, by simpa using hids, by simpa using hnd,
      by simpa using hlt, by simpa using hcard, hg, rfl⟩
  | succ k ih =>
    intro s st ids hg hids hnd hlt hcard hroom
    obtain ⟨r, s₁, st₁, hnext, hrlt, hrnot, hids₁, hnd₁, hlt₁, hcard₁, hg₁,
      _, _, hlen₁⟩ := disc_step s st G ids hg hids hnd hlt hcard (by omega)
    obtain ⟨rs, s', st', hsteps, hids', hnd', hlt', hcard', hg', hlen'⟩ :=
      ih s₁ st₁ (ids ++ [r.1]) hg₁ hids₁ hnd₁ hlt₁ hcard₁ (by omega)
    have hsplit : ids ++ (r :: rs).map Prod.fst
        = (ids ++ [r.1]) ++ rs.map Prod.fst := by simp
    refine ⟨r :: rs, s', st', steps_cons k hnext hsteps,
      ?_, ?_, ?_, ?_, hg', by omega⟩
    · rw [hsplit]; exact hids'
    · rw [hsplit]; exact hnd'
    · rw [hsplit]; exact hlt'
    · rw [hsplit]; exact hcard'

theorem steps_disc_inv (G : List (List ℚ)) (k : Nat) :
    ∀ (s : Sampler) (st : Store) (ids : List Nat) (rs : List (Nat × List ℚ))
    (s' : Sampler) (st' : Store),
    s.grids = some G →
    drawnIdsOf st = some (ids.map EVal.idv) → ids.Nodup →
    (∀ x ∈ ids, x < G.length) → ids.length = st.length →
    steps k s st = .ok (rs, s', st') →
    drawnIdsOf st' = some ((ids ++ rs.map Prod.fst).map EVal.idv) ∧
    (ids ++ rs.map Prod.fst).Nodup ∧
    (∀ x ∈ ids ++ rs.map Prod.fst, x < G.length) ∧
    (ids ++ rs.map Prod.fst).length = st'.length ∧
    s'.grids = some G ∧ st'.length = st.length + k := by
  induction k with
  | zero =>
    intro s st ids rs s' st' hg hids hnd hlt hcard h
    simp only [steps, Except.ok.injEq, Prod.mk.injEq] at h
    obtain ⟨h1, h2, h3⟩ := h
    subst h1; subst h2; subst h3
    exact ⟨by simpa using hids, by simpa using hnd, by simpa using hlt,
      by simpa using hcard, hg, rfl⟩
  | succ k ih =>
    intro s st ids rs s' st' hg hids hnd hlt hcard h
    obtain ⟨r, s₁, st₁, rs', hnext, hsteps', rfl⟩ := steps_ok_inv k h
    have hroom : st.length < G.length :=
      (nextDiscrete_ok_shape s st G r s₁ st₁
        ((next_eq_disc s st G hg).symm.trans hnext)).1
    obtain ⟨r', s₁', st₁', hnext', _, _, hids₁, hnd₁, hlt₁, hcard₁, hg₁,
      _, _, hlen₁⟩ := disc_step s st G ids hg hids hnd hlt hcard hroom
    have heq := hnext.symm.trans hnext'
    simp only [Except.ok.injEq, Prod.mk.injEq] at heq
    obtain ⟨h1, h2, h3⟩ := heq
    subst h1; subst h2; subst h3
    obtain ⟨hids', hnd', hlt', hcard', hg', hlen'⟩ :=
      ih s₁ st₁ (ids ++ [r.1]) rs' s' st' hg₁ hids₁ hnd₁ hlt₁ hcard₁ hsteps'
    have hsplit : ids ++ (r :: rs').map Prod.fst
        = (ids ++ [r.1]) ++ rs'.map Prod.fst := by simp
    exact ⟨hsplit ▸ hids', hsplit ▸ hnd', hsplit ▸ hlt', hsplit ▸ hcard',
      hg', by omega⟩

/-! ### Counting arguments on the id set -/

theorem full_of_nodup_lt (ids : List Nat) (L : Nat) (hnd : ids.Nodup)
    (hlt : ∀ x ∈ ids, x < L) (hlen : L ≤ ids.length) :
    ∀ x < L, x ∈ ids := by
  have hsub : ids.toFinset ⊆ Finset.range L := by
    intro x hx
    exact Finset.mem_range.mpr (hlt x (List.mem_toFinset.mp hx))
  have hcard : (Finset.range L).card ≤ ids.toFinset.card := by
    rw [Finset.card_range, List.toFinset_card_of_nodup hnd]
    exact hlen
  have heq := Finset.eq_of_subset_of_card_le hsub hcard
  intro x hx
  have hx' : x ∈ ids.toFinset := by
    rw [heq]
    exact Finset.mem_range.mpr hx
  exact List.mem_toFinset.mp hx'

theorem perm_range_of_nodup (ids : List Nat) (L : Nat) (hnd : ids.Nodup)
    (hlt : ∀ x ∈ ids, x < L) (hlen : ids.length = L) :
    ids.Perm (List.range L) := by
  apply List.perm_of_nodup_nodup_toFinset_eq hnd (List.nodup_range L)
  have h1 : (List.range L).toFinset = Finset.range L := by ext x; simp
  rw [h1]
  apply Finset.eq_of_subset_of_card_le
  · intro x hx
    exact Finset.mem_range.mpr (hlt x (List.mem_toFinset.mp hx))
  · rw [Finset.card_range, List.toFinset_card_of_nodup hnd, hlen]

/-! ### Entropy accounting across a run (for reconciliation) -/

/-- The entropy a sampler's branch consumes per step: one `choice` draw in
the discrete branch, `n` scalar draws in the continuous branch. -/
def stepCost (s : Sampler) : Nat :=
  match s.grids with
  | some _ => 1
  | none => s.space.names.length

theorem stepCost_some {s : Sampler} {G : List (List ℚ)}
    (h : s.grids = some G) : stepCost s = 1 := by
  rw [stepCost, h]

theorem stepCost_none {s : Sampler} (h : s.grids = none) :
    stepCost s = s.space.names.length := by
  rw [stepCost, h]

theorem stepCost_congr {s t : Sampler} (hg : s.grids = t.grids)
    (hsp : s.space = t.space) : stepCost s = stepCost t := by
  rcases h : t.grids with _ | G
  · rw [stepCost_none (hg.trans h), stepCost_none h, hsp]
  · rw [stepCost_some (hg.trans h), stepCost_some h]

theorem next_ok_pos (s : Sampler) (st : Store) (r : Nat × List ℚ)
    (s' : Sampler) (st' : Store) (h : Random.next s st = .ok (r, s', st')) :
    s'.pos = s.pos + stepCost s * ((st.length : ℤ) - s.drawn).toNat
      + stepCost s := by
  rcases hg : s.grids with _ | G
  · rw [next_eq_cont s st hg] at h
    rw [(nextContinuous_ok_shape s st r s' st' h).2.2.2.2.1, stepCost_none hg]
  · rw [next_eq_disc s st G hg] at h
    have := (nextDiscrete_ok_shape s st G r s' st' h).2.2.2.2.1
    rw [this, stepCost_some hg]
    omega

/-- Invariant of a sequential run of one sampler from an empty-`drawn`
baseline: the configuration never changes, `drawn` tracks the store size,
and the generator position is exactly the baseline position plus the branch
cost times the number of records. -/
def RunInv (s₀ s : Sampler) (st : Store) : Prop :=
  s.space = s₀.space ∧ s.grids = s₀.grids ∧ s.stream = s₀.stream ∧
  s.drawn = (st.length : ℤ) ∧ s.pos = s₀.pos + stepCost s₀ * st.length

theorem next_ok_runinv {s₀ s : Sampler} {st : Store} {r : Nat × List ℚ}
    {s' : Sampler} {st' : Store} (hinv : RunInv s₀ s st)
    (h : Random.next s st = .ok (r, s', st')) : RunInv s₀ s' st' := by
  obtain ⟨hsp, hg, hstr, hd, hp⟩ := hinv
  obtain ⟨hsp', hg', hstr', hd', e, hst'⟩ := next_ok_common s st r s' st' h
  have hlen : st'.length = st.length + 1 := by rw [hst']; simp
  have hpos := next_ok_pos s st r s' st' h
  have hcost : stepCost s = stepCost s₀ := stepCost_congr hg hsp
  refine ⟨hsp'.trans hsp, hg'.trans hg, hstr'.trans hstr, ?_, ?_⟩
  · rw [hd', hlen]; push_cast; ring
  · rw [hpos, hlen, hp, hcost, hd]
    have : ((st.length : ℤ) - (st.length : ℤ)).toNat = 0 := by omega
    rw [this]
    ring

theorem steps_runinv (k : Nat) : ∀ (s₀ s : Sampler) (st : Store)
    (rs : List (Nat × List ℚ)) (s' : Sampler) (st' : Store),
    RunInv s₀ s st → steps k s st = .ok (rs, s', st') → RunInv s₀ s' st' := by
  induction k with
  | zero =>
    intro s₀ s st rs s' st' hinv h
    simp only [steps, Except.ok.injEq, Prod.mk.injEq] at h
    obtain ⟨h1, h2, h3⟩ := h
    subst h1; subst h2; subst h3
    exact hinv
  | succ k ih =>
    intro s₀ s st rs s' st' hinv h
    obtain ⟨r, s₁, st₁, rs', hnext, hsteps', rfl⟩ := steps_ok_inv k h
    exact ih s₀ s₁ st₁ rs' s' st' (next_ok_runinv hinv hnext) hsteps'

/-- Two samplers over the same store whose generators sit at the same
effective position (current position plus the burn their `drawn` gap
implies) produce the same call result. -/
theorem next_resultOf_ext (s t : Sampler) (st : Store)
    (hspace : s.space = t.space) (hg : s.grids = t.grids)
    (hstream : s.stream = t.stream)
    (hsd : s.drawn ≤ (st.length : ℤ)) (htd : t.drawn ≤ (st.length : ℤ))
    (hpos : s.pos + stepCost s * ((st.length : ℤ) - s.drawn).toNat
          = t.pos + stepCost t * ((st.length : ℤ) - t.drawn).toNat) :
    resultOf (Random.next s st) = resultOf (Random.next t st) := by
  rcases hgt : t.grids with _ | G
  · have hgs : s.grids = none := hg.trans hgt
    rw [next_eq_cont s st hgs, next_eq_cont t st hgt,
      nextContinuous_ok_char s st hsd, nextContinuous_ok_char t st htd]
    simp only [resultOf, Option.some.injEq, Prod.mk.injEq, true_and]
    have hout : contOut s st = contOut t st := by
      rw [contOut, contOut, hspace, hstream]
      rw [stepCost_none hgs, stepCost_none hgt, hspace] at hpos
      rw [hpos]
    rw [hout, hspace]
  · have hgs : s.grids = some G := hg.trans hgt
    rw [stepCost_some hgs, stepCost_some hgt, one_mul, one_mul] at hpos
    by_cases hex : G.length ≤ st.length
    · rw [next_eq_disc s st G hgs, next_eq_disc t st G hgt,
        nextDiscrete_exhausted s st G hex, nextDiscrete_exhausted t st G hex]
      rfl
    · have hlt : st.length < G.length := by omega
      rcases hid : drawnIdsOf st with _ | ds
      · rw [next_eq_disc s st G hgs, next_eq_disc t st G hgt,
          nextDiscrete_keyError s st G hlt hid,
          nextDiscrete_keyError t st G hlt hid]
        rfl
      · by_cases hne : availableChoices G.length ds = []
        · rw [next_eq_disc s st G hgs, next_eq_disc t st G hgt,
            nextDiscrete_emptyChoices s st G ds hlt hid hne,
            nextDiscrete_emptyChoices t st G ds hlt hid hne]
          rfl
        · rw [next_eq_disc s st G hgs, next_eq_disc t st G hgt,
            nextDiscrete_ok_char s st G ds hlt hid hne,
            nextDiscrete_ok_char t st G ds hlt hid hne]
          have hsample : discSample s st G ds = discSample t st G ds := by
            rw [discSample, discSample, hstream, hpos]
          simp only [resultOf, Option.some.injEq, Prod.mk.injEq]
          rw [hsample, hspace]
          exact ⟨rfl, rfl⟩

theorem le_length_of_all_mem (ids : List Nat) (L : Nat)
    (hall : ∀ x < L, x ∈ ids) : L ≤ ids.length := by
  have hsub : Finset.range L ⊆ ids.toFinset := fun x hx =>
    List.mem_toFinset.mpr (hall x (Finset.mem_range.mp hx))
  calc L = (Finset.range L).card := (Finset.card_range L).symm
  _ ≤ ids.toFinset.card := Finset.card_le_card hsub
  _ ≤ ids.length := List.toFinset_card_le _

/-- The keys of a freshly built record are the dimension names plus the id
key, and the id key's binding is the token id (it shadows any dimension of
the same name). -/
theorem buildEntry_keys (names : List String) (out : List ℚ) (tid : Nat)
    (hlen : out.length = names.length) (k : String) :
    (dlookup (buildEntry names out tid) k).isSome ↔
      (k ∈ names ∨ k = "_chocolate_id") := by
  rw [dlookup_isSome_iff, buildEntry, List.map_append, List.mem_append]
  have hfst : (names.zip (out.map EVal.q)).map Prod.fst = names :=
    List.map_fst_zip names (out.map EVal.q) (by simp [hlen])
  rw [hfst]
  simp

/-! ### Insert-only reachability (for the `drawn` counter) -/

theorem reach_drawn (s₀ : Sampler) (st₀ : Store)
    (hbase : s₀.drawn ≤ (st₀.length : ℤ)) :
    ∀ s st, Reach s₀ st₀ s st →
      s₀.drawn ≤ s.drawn ∧ s.drawn ≤ (st.length : ℤ) := by
  intro s st h
  induction h with
  | refl => exact ⟨le_refl _, hbase⟩
  | ext extra hr ih =>
    refine ⟨ih.1, le_trans ih.2 ?_⟩
    simp only [List.length_append]
    push_cast
    omega
  | step hr hnext ih =>
    have hcom := next_ok_common _ _ _ _ _ hnext
    obtain ⟨_, _, _, hd', e, hst'⟩ := hcom
    constructor
    · rw [hd']
      have := ih.2
      omega
    · rw [hd', hst']
      simp only [List.length_append, List.length_singleton]
      push_cast
      omega

/-- `recordedAll` in terms of the id list the discrete branch reads. -/
theorem recordedAll_iff_ids (st : Store) (L : Nat) (ids : List Nat)
    (hids : drawnIdsOf st = some (ids.map EVal.idv)) :
    recordedAll st L ↔ ∀ x < L, x ∈ ids := by
  constructor
  · intro h x hx
    obtain ⟨doc, hdoc, hval⟩ := h x hx
    have hmem := (drawnIdsOf_mem st _ hids (EVal.idv x)).mpr ⟨doc, hdoc, hval⟩
    simpa using hmem
  · intro h x hx
    have hmem : EVal.idv x ∈ ids.map EVal.idv :=
      List.mem_map_of_mem _ (h x hx)
    exact (drawnIdsOf_mem st _ hids (EVal.idv x)).mp hmem

/-! ### Concrete fixtures used by the witnesses -/

/-- A tiny concrete entropy stream. -/
def streamW : EntropyStream := ⟨fun _ => 0, fun p => p⟩

/-- A tiny concrete environment: every seed yields `streamW`, the grid of any
space is `[[0], [1]]`. -/
def envW : Env :=
  { seedStream := fun _ => streamW
    globalStream := streamW
    globalPos := 0
    gridOf := fun _ => [[0], [1]] }

/-- A one-dimensional fully discrete space. -/
def spaceDW : SpaceT := { names := ["a"], isdiscrete := true, map := fun l => l }

/-- A one-dimensional continuous space. -/
def spaceCW : SpaceT := { names := ["a"], isdiscrete := false, map := fun l => l }

/-! ### The claims -/

/-- C9: Seed resolution at construction: an existing generator handle is used
as-is, the absence-of-value marker selects the ambient process-wide default
generator, and any other value is used to deterministically construct a new
generator (starting at position 0) rather than being rejected; for all three
shapes construction succeeds, with `subspace_grids` built iff the space is
fully discrete and `drawn` starting at 0. -/
theorem seed_resolution (env : Env) (space : SpaceT) :
    (∀ (stream : EntropyStream) (pos : Nat),
      Random.init env space (.rstate stream pos) =
        { space := space
          grids := if space.isdiscrete then some (env.gridOf space) else none
          stream := stream, pos := pos, drawn := 0 }) ∧
    (Random.init env space .absent =
        { space := space
          grids := if space.isdiscrete then some (env.gridOf space) else none
          stream := env.globalStream, pos := env.globalPos, drawn := 0 }) ∧
    (∀ v : Int, Random.init env space (.value v) =
        { space := space
          grids := if space.isdiscrete then some (env.gridOf space) else none
          stream := env.seedStream v, pos := 0, drawn := 0 }) :=
  ⟨fun _ _ => rfl, rfl, fun _ => rfl⟩

/-- C2: two fresh samplers constructed from the same (non-generator,
non-absent) seed value, each over its own empty store, produce identical
sequences of (token, point) results under the same sequence of sequential
calls — whatever the ambient global generators of the two processes are. -/
theorem same_seed_determinism (env₁ env₂ : Env) (space : SpaceT) (v : Int)
    (m : Nat) (hseed : env₁.seedStream = env₂.seedStream)
    (hgrid : env₁.gridOf = env₂.gridOf) :
    steps m (Random.init env₁ space (.value v)) []
      = steps m (Random.init env₂ space (.value v)) [] := by
  have h : Random.init env₁ space (.value v)
      = Random.init env₂ space (.value v) := by
    simp only [Random.init, hseed, hgrid]
  rw [h]

theorem same_seed_determinism_witness :
    steps 2 (Random.init envW spaceDW (.value 0)) []
      = steps 2 (Random.init envW spaceDW (.value 0)) [] :=
  same_seed_determinism envW envW spaceDW 0 2 rfl rfl

/-- C6: for a space that is not fully discrete, the token ids of `N`
sequential calls starting from an empty store are exactly `0, 1, …, N-1` in
call order, and the store ends with `N` records. -/
theorem continuous_id_monotone (env : Env) (space : SpaceT) (v : Int)
    (N : Nat) (hd : space.isdiscrete = false) :
    ∃ rs s' st',
      steps N (Random.init env space (.value v)) [] = .ok (rs, s', st') ∧
      rs.map Prod.fst = List.range N ∧ st'.length = N := by
  have hg : (Random.init env space (.value v)).grids = none := by
    simp [Random.init, hd]
  obtain ⟨rs, s', st', hsteps, hids, _, _, _, _, hlen⟩ :=
    steps_cont_run N (Random.init env space (.value v)) [] hg rfl
  refine ⟨rs, s', st', hsteps, ?_, by simpa using hlen⟩
  have h0 : rs.map Prod.fst = List.range' 0 N := by simpa using hids
  rw [h0, ← List.range_eq_range']

theorem continuous_id_monotone_witness :
    spaceCW.isdiscrete = false ∧
    ∃ rs s' st',
      steps 3 (Random.init envW spaceCW (.value 0)) [] = .ok (rs, s', st') ∧
      rs.map Prod.fst = List.range 3 ∧ st'.length = 3 :=
  ⟨rfl, continuous_id_monotone envW spaceCW 0 3 rfl⟩

/-- C3: for a fully discrete space whose grid has size `L`, `L` sequential
calls starting from an empty store all succeed, their token ids cover
exactly `{0, …, L-1}` with no repetition, and the `(L+1)`-th call fails with
the Exhausted condition. -/
theorem discrete_exhaustion (env : Env) (space : SpaceT) (v : Int)
    (hd : space.isdiscrete = true) :
    ∃ rs sL stL,
      steps (env.gridOf space).length (Random.init env space (.value v)) []
        = .ok (rs, sL, stL) ∧
      (rs.map Prod.fst).Perm (List.range (env.gridOf space).length) ∧
      steps ((env.gridOf space).length + 1)
        (Random.init env space (.value v)) []
        = .error (.exhausted, sL, stL) := by
  have hg : (Random.init env space (.value v)).grids
      = some (env.gridOf space) := by
    simp [Random.init, hd]
  obtain ⟨rs, s', st', hsteps, hids, hnd, hlt, hcard, hg', hlen⟩ :=
    steps_disc_run (env.gridOf space) (env.gridOf space).length
      (Random.init env space (.value v)) [] [] hg rfl List.nodup_nil
      (by simp) rfl (by simp)
  have hlen' : st'.length = (env.gridOf space).length := by simpa using hlen
  refine ⟨rs, s', st', hsteps, ?_, ?_⟩
  · exact perm_range_of_nodup _ _ (by simpa using hnd) (by simpa using hlt)
      (by simpa [hlen'] using hcard)
  · have hsnoc := steps_snoc _ hsteps
    rw [next_eq_disc s' st' _ hg',
      nextDiscrete_exhausted s' st' _ (le_of_eq hlen'.symm)] at hsnoc
    exact hsnoc

theorem discrete_exhaustion_witness :
    spaceDW.isdiscrete = true ∧
    ∃ rs sL stL,
      steps (envW.gridOf spaceDW).length
        (Random.init envW spaceDW (.value 0)) [] = .ok (rs, sL, stL) ∧
      (rs.map Prod.fst).Perm (List.range (envW.gridOf spaceDW).length) ∧
      steps ((envW.gridOf spaceDW).length + 1)
        (Random.init envW spaceDW (.value 0)) []
        = .error (.exhausted, sL, stL) :=
  ⟨rfl, discrete_exhaustion envW spaceDW 0 rfl⟩

/-- C5: in every sequential run against one store over a fully discrete
space, no grid index ever appears in more than one stored record (the list
of recorded ids has no duplicate, so each successful call's chosen id was
absent from all previous records), and once every grid index is recorded no
further draw is possible: the next call fails with the Exhausted
condition. -/
theorem no_duplicate_ids (env : Env) (space : SpaceT) (v : Int) (k : Nat)
    (rs : List (Nat × List ℚ)) (s' : Sampler) (st' : Store)
    (hd : space.isdiscrete = true)
    (hsteps : steps k (Random.init env space (.value v)) []
      = .ok (rs, s', st')) :
    drawnIdsOf st' = some ((rs.map Prod.fst).map EVal.idv) ∧
    (rs.map Prod.fst).Nodup ∧
    (recordedAll st' (env.gridOf space).length →
      errKind (Random.next s' st') = some .exhausted) := by
  have hg : (Random.init env space (.value v)).grids
      = some (env.gridOf space) := by
    simp [Random.init, hd]
  obtain ⟨hids, hnd, hlt, hcard, hg', hlen⟩ :=
    steps_disc_inv (env.gridOf space) k (Random.init env space (.value v))
      [] [] rs s' st' hg rfl List.nodup_nil (by simp) rfl hsteps
  have hids' : drawnIdsOf st' = some ((rs.map Prod.fst).map EVal.idv) := by
    simpa using hids
  have hnd' : (rs.map Prod.fst).Nodup := by simpa using hnd
  have hcard' : (rs.map Prod.fst).length = st'.length := by simpa using hcard
  refine ⟨hids', hnd', ?_⟩
  intro hrec
  have hall := (recordedAll_iff_ids st' (env.gridOf space).length
    (rs.map Prod.fst) hids').mp hrec
  have hfull : (env.gridOf space).length ≤ st'.length := by
    have := le_length_of_all_mem (rs.map Prod.fst) _ hall
    omega
  rw [next_eq_disc s' st' _ hg', nextDiscrete_exhausted s' st' _ hfull]
  rfl

theorem no_duplicate_ids_witness :
    spaceDW.isdiscrete = true ∧
    (drawnIdsOf ([] : Store)
        = some ((([] : List (Nat × List ℚ)).map Prod.fst).map EVal.idv) ∧
     (([] : List (Nat × List ℚ)).map Prod.fst).Nodup ∧
     (recordedAll ([] : Store) (envW.gridOf spaceDW).length →
       errKind (Random.next (Random.init envW spaceDW (.value 0)) [])
         = some .exhausted)) :=
  ⟨rfl, no_duplicate_ids envW spaceDW 0 0 []
    (Random.init envW spaceDW (.value 0)) [] rfl rfl⟩

/-- C4: at any state reached by a sequential run from an empty store,
`next()` fails with the Exhausted condition iff the space is fully discrete
and every grid index is already recorded; on that failure the call returns
the sampler state and store exactly as they were (no insert, generator
position and `drawn` untouched); no other failure kind occurs there, and a
successful call appends exactly one record. -/
theorem exhausted_iff_full (env : Env) (space : SpaceT) (v : Int) (k : Nat)
    (rs : List (Nat × List ℚ)) (s' : Sampler) (st' : Store)
    (hsteps : steps k (Random.init env space (.value v)) []
      = .ok (rs, s', st')) :
    (errKind (Random.next s' st') = some .exhausted ↔
      (space.isdiscrete = true ∧
        recordedAll st' (env.gridOf space).length)) ∧
    (errKind (Random.next s' st') = some .exhausted →
      Random.next s' st' = .error (.exhausted, s', st')) ∧
    (errKind (Random.next s' st') = none ∨
      errKind (Random.next s' st') = some .exhausted) ∧
    (∀ r s'' st'', Random.next s' st' = .ok (r, s'', st'') →
      ∃ e, st'' = st' ++ [e]) := by
  rcases hd : space.isdiscrete with _ | _
  · -- continuous branch: the call always succeeds
    have hg : (Random.init env space (.value v)).grids = none := by
      simp [Random.init, hd]
    obtain ⟨rs₀, s₀, st₀, hsteps₀, _, hg', _, _, hd', _⟩ :=
      steps_cont_run k (Random.init env space (.value v)) [] hg rfl
    rw [hsteps₀] at hsteps
    simp only [Except.ok.injEq, Prod.mk.injEq] at hsteps
    obtain ⟨h1, h2, h3⟩ := hsteps
    subst h1; subst h2; subst h3
    have hnext := (next_eq_cont s₀ st₀ hg').trans
      (nextContinuous_ok_char s₀ st₀ (le_of_eq hd'))
    refine ⟨?_, ?_, ?_, ?_⟩
    · rw [hnext]
      simp [errKind]
    · rw [hnext]
      intro h
      exact absurd h (by simp [errKind])
    · rw [hnext]
      left
      rfl
    · intro r s'' st'' h
      exact (next_ok_common _ _ _ _ _ h).2.2.2.2
  · -- discrete branch
    have hg : (Random.init env space (.value v)).grids
        = some (env.gridOf space) := by
      simp [Random.init, hd]
    obtain ⟨hids, hnd, hlt, hcard, hg', _⟩ :=
      steps_disc_inv (env.gridOf space) k (Random.init env space (.value v))
        [] [] rs s' st' hg rfl List.nodup_nil (by simp) rfl hsteps
    have hids' : drawnIdsOf st' = some ((rs.map Prod.fst).map EVal.idv) := by
      simpa using hids
    have hnd' : (rs.map Prod.fst).Nodup := by simpa using hnd
    have hlt' : ∀ x ∈ rs.map Prod.fst, x < (env.gridOf space).length := by
      simpa using hlt
    have hcard' : (rs.map Prod.fst).length = st'.length := by simpa using hcard
    by_cases hfull : (env.gridOf space).length ≤ st'.length
    · have hnext : Random.next s' st' = .error (.exhausted, s', st') :=
        (next_eq_disc s' st' _ hg').trans
          (nextDiscrete_exhausted s' st' _ hfull)
      refine ⟨?_, fun _ => hnext, ?_, ?_⟩
      · rw [hnext]
        constructor
        · intro _
          refine ⟨rfl, ?_⟩
          rw [recordedAll_iff_ids st' _ (rs.map Prod.fst) hids']
          exact full_of_nodup_lt (rs.map Prod.fst) _ hnd' hlt' (by omega)
        · intro _
          rfl
      · right
        rw [hnext]
        rfl
      · intro r s'' st'' h
        rw [hnext] at h
        exact Except.noConfusion h
    · obtain ⟨r, s₂, st₂, hnext, _⟩ :=
        disc_step s' st' (env.gridOf space) (rs.map Prod.fst) hg' hids'
          hnd' hlt' hcard' (by omega)
      refine ⟨?_, ?_, ?_, ?_⟩
      · rw [hnext]
        constructor
        · intro h
          exact absurd h (by simp [errKind])
        · rintro ⟨_, hrec⟩
          exfalso
          have hall := (recordedAll_iff_ids st' (env.gridOf space).length
            (rs.map Prod.fst) hids').mp hrec
          have := le_length_of_all_mem (rs.map Prod.fst) _ hall
          omega
      · rw [hnext]
        intro h
        exact absurd h (by simp [errKind])
      · rw [hnext]
        left
        rfl
      · intro r' s'' st'' h
        exact (next_ok_common _ _ _ _ _ h).2.2.2.2

theorem exhausted_iff_full_witness :
    steps 0 (Random.init envW spaceCW (.value 0)) []
      = .ok ([], Random.init envW spaceCW (.value 0), []) ∧
    ((errKind (Random.next (Random.init envW spaceCW (.value 0)) [])
        = some .exhausted ↔
      (spaceCW.isdiscrete = true ∧
        recordedAll ([] : Store) (envW.gridOf spaceCW).length)) ∧
    (errKind (Random.next (Random.init envW spaceCW (.value 0)) [])
        = some .exhausted →
      Random.next (Random.init envW spaceCW (.value 0)) []
        = .error (.exhausted, Random.init envW spaceCW (.value 0), [])) ∧
    (errKind (Random.next (Random.init envW spaceCW (.value 0)) []) = none ∨
      errKind (Random.next (Random.init envW spaceCW (.value 0)) [])
        = some .exhausted) ∧
    (∀ r s'' st'',
      Random.next (Random.init envW spaceCW (.value 0)) []
        = .ok (r, s'', st'') → ∃ e, st'' = ([] : Store) ++ [e])) :=
  ⟨rfl, exhausted_iff_full envW spaceCW 0 0 []
    (Random.init envW spaceCW (.value 0)) [] rfl⟩

/-- C7: the discrete draw step: the available-choice set is the ascending
sorted list of the grid indices in `[0, L)` not present among the stored
ids, the drawn sample is an element of that set, the token id is the chosen
grid index itself (as a plain integer), and the point returned is the grid
row at the chosen index passed through the space mapping. -/
theorem discrete_draw_step (s : Sampler) (st : Store) (G : List (List ℚ))
    (ds : List EVal) (hg : s.grids = some G)
    (hids : drawnIdsOf st = some ds) (hlt : st.length < G.length)
    (hne : availableChoices G.length ds ≠ []) :
    List.Sorted (· < ·) (availableChoices G.length ds) ∧
    (∀ x : Nat, x ∈ availableChoices G.length ds ↔
      (x < G.length ∧ EVal.idv x ∉ ds)) ∧
    discSample s st G ds ∈ availableChoices G.length ds ∧
    resultOf (Random.next s st) =
      some (discSample s st G ds,
        s.space.map (G.getD (discSample s st G ds) [])) := by
  refine ⟨sorted_availableChoices _ _, fun x => mem_availableChoices _ _ x,
    discSample_mem s st G ds hne, ?_⟩
  rw [next_eq_disc s st G hg, nextDiscrete_ok_char s st G ds hlt hids hne]
  rfl

theorem discrete_draw_step_witness :
    List.Sorted (· < ·)
      (availableChoices ([[0], [1]] : List (List ℚ)).length []) ∧
    (∀ x : Nat,
      x ∈ availableChoices ([[0], [1]] : List (List ℚ)).length [] ↔
        (x < ([[0], [1]] : List (List ℚ)).length ∧
          EVal.idv x ∉ ([] : List EVal))) ∧
    discSample (Random.init envW spaceDW (.value 0)) [] [[0], [1]] []
      ∈ availableChoices ([[0], [1]] : List (List ℚ)).length [] ∧
    resultOf (Random.next (Random.init envW spaceDW (.value 0)) []) =
      some (discSample (Random.init envW spaceDW (.value 0)) [] [[0], [1]] [],
        (Random.init envW spaceDW (.value 0)).space.map
          (([[0], [1]] : List (List ℚ)).getD
            (discSample (Random.init envW spaceDW (.value 0)) []
              [[0], [1]] []) [])) :=
  discrete_draw_step (Random.init envW spaceDW (.value 0)) [] [[0], [1]] []
    rfl rfl (by decide) (by decide)

/-- C8: after every successful call, `drawn` equals `i + 1` where `i` is the
record count read at the start of the call (it is set absolutely, not
incremented by one); and along any chain of the instance's own calls
interleaved with external insert-only writes, starting from a state whose
`drawn` is at most the record count, `drawn` never decreases and stays at
most the record count. -/
theorem drawn_counter :
    (∀ (s : Sampler) (st : Store) (r : Nat × List ℚ) (s' : Sampler)
      (st' : Store), Random.next s st = .ok (r, s', st') →
      s'.drawn = (st.length : ℤ) + 1) ∧
    (∀ (s₀ : Sampler) (st₀ : Store), s₀.drawn ≤ (st₀.length : ℤ) →
      ∀ s st, Reach s₀ st₀ s st →
        s₀.drawn ≤ s.drawn ∧ s.drawn ≤ (st.length : ℤ)) :=
  ⟨fun s st r s' st' h => (next_ok_common s st r s' st' h).2.2.2.1,
   reach_drawn⟩

theorem drawn_counter_witness :
    ({ space := spaceCW, grids := none, stream := streamW, pos := 1,
       drawn := 1 } : Sampler).drawn = (([] : Store).length : ℤ) + 1 ∧
    ((Random.init envW spaceCW (.value 0)).drawn
        ≤ (Random.init envW spaceCW (.value 0)).drawn ∧
      (Random.init envW spaceCW (.value 0)).drawn
        ≤ (([] : Store).length : ℤ)) :=
  ⟨drawn_counter.1 (Random.init envW spaceCW (.value 0)) [] (0, [0])
      { space := spaceCW, grids := none, stream := streamW, pos := 1,
        drawn := 1 }
      [[("a", EVal.q 0), ("_chocolate_id", EVal.idv 0)]] rfl,
   drawn_counter.2 (Random.init envW spaceCW (.value 0)) [] (by decide)
     (Random.init envW spaceCW (.value 0)) [] Reach.refl⟩

/-- C10: every record a successful call inserts binds exactly the space's
dimension names plus the id key `"_chocolate_id"`; the token binding is
merged in after the per-dimension values, so the id key always holds the
token id — if a dimension is itself named `"_chocolate_id"`, its raw drawn
value is silently overwritten in the stored record. -/
theorem record_keys (s : Sampler) (st : Store) (r : Nat × List ℚ)
    (s' : Sampler) (st' : Store)
    (hrows : ∀ G, s.grids = some G → ∀ row ∈ G,
      row.length = s.space.names.length)
    (h : Random.next s st = .ok (r, s', st')) :
    ∃ out, st' = st ++ [buildEntry s.space.names out r.1] ∧
      out.length = s.space.names.length ∧
      dlookup (buildEntry s.space.names out r.1) "_chocolate_id"
        = some (EVal.idv r.1) ∧
      (∀ key : String,
        (dlookup (buildEntry s.space.names out r.1) key).isSome ↔
          (key ∈ s.space.names ∨ key = "_chocolate_id")) := by
  rcases hg : s.grids with _ | G
  · rw [next_eq_cont s st hg] at h
    obtain ⟨_, _, _, _, _, _, hr1, _, hst'⟩ :=
      nextContinuous_ok_shape s st r s' st' h
    refine ⟨contOut s st, ?_, ?_, dlookup_buildEntry_id _ _ _, ?_⟩
    · rw [hst', hr1]
    · rw [contOut]; simp
    · intro key
      exact buildEntry_keys _ _ _ (by rw [contOut]; simp) key
  · rw [next_eq_disc s st G hg] at h
    obtain ⟨hlt, _, _, _, _, _, _, hst', ds, hds, hne, hr1⟩ :=
      nextDiscrete_ok_shape s st G r s' st' h
    have hr1lt : r.1 < G.length := by
      rw [hr1]
      exact ((mem_availableChoices _ _ _).mp
        (discSample_mem s st G ds hne)).1
    have hrow : G.getD r.1 [] ∈ G := getD_mem_of_lt G [] r.1 hr1lt
    have hlen := hrows G hg _ hrow
    refine ⟨G.getD r.1 [], hst', hlen, dlookup_buildEntry_id _ _ _, ?_⟩
    intro key
    exact buildEntry_keys _ _ _ hlen key

theorem record_keys_witness :
    ∃ out, [[("a", EVal.q 0), ("_chocolate_id", EVal.idv 0)]]
        = ([] : Store)
          ++ [buildEntry (Random.init envW spaceCW (.value 0)).space.names
            out ((0 : Nat), ([0] : List ℚ)).1] ∧
      out.length = (Random.init envW spaceCW (.value 0)).space.names.length ∧
      dlookup (buildEntry (Random.init envW spaceCW (.value 0)).space.names
          out ((0 : Nat), ([0] : List ℚ)).1) "_chocolate_id"
        = some (EVal.idv ((0 : Nat), ([0] : List ℚ)).1) ∧
      (∀ key : String,
        (dlookup (buildEntry
          (Random.init envW spaceCW (.value 0)).space.names
          out ((0 : Nat), ([0] : List ℚ)).1) key).isSome ↔
          (key ∈ (Random.init envW spaceCW (.value 0)).space.names ∨
            key = "_chocolate_id")) :=
  record_keys (Random.init envW spaceCW (.value 0)) []
    ((0 : Nat), ([0] : List ℚ))
    { space := spaceCW, grids := none, stream := streamW, pos := 1,
      drawn := 1 }
    [[("a", EVal.q 0), ("_chocolate_id", EVal.idv 0)]]
    (fun _ hG => Option.noConfusion hG) rfl

/-- C1: reconciliation (burning) is correct: a successful call advances the
generator by exactly `(i - drawn)` burnt scalar draws plus the one choice
draw in the discrete branch, and by `n * (i - drawn)` burnt scalar draws
plus the `n` point draws in the continuous branch (`i` the record count
read, `n` the dimension count); consequently, a fresh sampler constructed
with the same seed over the store left by `k` calls of a from-scratch run
returns, on its first call, exactly the (token, point) result the
from-scratch run's `(k+1)`-th call returns. -/
theorem reconciliation_correct :
    (∀ (s : Sampler) (st : Store) (G : List (List ℚ)) (r : Nat × List ℚ)
      (s' : Sampler) (st' : Store), s.grids = some G →
      Random.next s st = .ok (r, s', st') →
      s'.pos = s.pos + ((st.length : ℤ) - s.drawn).toNat + 1) ∧
    (∀ (s : Sampler) (st : Store) (r : Nat × List ℚ)
      (s' : Sampler) (st' : Store), s.grids = none →
      Random.next s st = .ok (r, s', st') →
      s'.pos = s.pos
        + s.space.names.length * ((st.length : ℤ) - s.drawn).toNat
        + s.space.names.length) ∧
    (∀ (env : Env) (space : SpaceT) (v : Int) (k : Nat)
      (rs : List (Nat × List ℚ)) (sk : Sampler) (stk : Store),
      steps k (Random.init env space (.value v)) [] = .ok (rs, sk, stk) →
      resultOf (Random.next (Random.init env space (.value v)) stk)
        = resultOf (Random.next sk stk)) := by
  refine ⟨?_, ?_, ?_⟩
  · intro s st G r s' st' hg h
    rw [next_eq_disc s st G hg] at h
    exact (nextDiscrete_ok_shape s st G r s' st' h).2.2.2.2.1
  · intro s st r s' st' hg h
    rw [next_eq_cont s st hg] at h
    exact (nextContinuous_ok_shape s st r s' st' h).2.2.2.2.1
  · intro env space v k rs sk stk hsteps
    have hinv0 : RunInv (Random.init env space (.value v))
        (Random.init env space (.value v)) [] := ⟨rfl, rfl, rfl, rfl, by simp⟩
    obtain ⟨hsp, hgr, hstr, hdk, hpk⟩ :=
      steps_runinv k _ _ [] rs sk stk hinv0 hsteps
    have hd0 : (Random.init env space (.value v)).drawn = 0 := rfl
    have hcost : stepCost (Random.init env space (.value v)) = stepCost sk :=
      stepCost_congr hgr.symm hsp.symm
    refine next_resultOf_ext _ sk stk hsp.symm hgr.symm hstr.symm ?_
      (le_of_eq hdk) ?_
    · rw [hd0]
      exact Int.natCast_nonneg _
    · rw [hd0, hdk, hpk, ← hcost]
      have h1 : ((stk.length : ℤ) - 0).toNat = stk.length := by omega
      have h2 : ((stk.length : ℤ) - (stk.length : ℤ)).toNat = 0 := by omega
      rw [h1, h2]
      ring

theorem reconciliation_correct_witness :
    ({ space := spaceCW, grids := none, stream := streamW, pos := 1,
       drawn := 1 } : Sampler).pos
      = (Random.init envW spaceCW (.value 0)).pos
        + (Random.init envW spaceCW (.value 0)).space.names.length *
          ((([] : Store).length : ℤ)
            - (Random.init envW spaceCW (.value 0)).drawn).toNat
        + (Random.init envW spaceCW (.value 0)).space.names.length ∧
    resultOf (Random.next (Random.init envW spaceCW (.value 0)) [])
      = resultOf (Random.next (Random.init envW spaceCW (.value 0)) []) :=
  ⟨reconciliation_correct.2.1 (Random.init envW spaceCW (.value 0)) []
      ((0 : Nat), ([0] : List ℚ))
      { space := spaceCW, grids := none, stream := streamW, pos := 1,
        drawn := 1 }
      [[("a", EVal.q 0), ("_chocolate_id", EVal.idv 0)]] rfl rfl,
   reconciliation_correct.2.2 envW spaceCW 0 0 []
      (Random.init envW spaceCW (.value 0)) [] rfl⟩

end Chocolate
